import Mathlib

/-
Verification of the Warden process supervision core (src/index.js and
src/process_manager.js) against its specification.

The JavaScript code is shallowly embedded: straight-line effectful code
becomes an explicit list of actions (a trace), the process table becomes an
association list with JS Map semantics, and the nondeterminism of the
operating system during termination (signal delivery failures, the race
between child exit and the 2-second grace timer, platform differences) is
captured by a finite record of booleans, so that temporal properties of the
termination protocol are decidable by enumerating all environments.
-/

namespace Warden

/-! ## Data model: projects and manifests -/

/-- A workspace project as produced by discovery: name, filesystem path and
the declared script map (association list from script name to command),
mirroring the WorkspaceProject typedef in process_manager.js. -/
structure Project where
  name : String
  path : String
  scripts : List (String × String)
deriving DecidableEq

/-- The fields of a package manifest that the scanner reads: the declared
name and the optional scripts field (absent when the manifest has no
scripts entry). -/
structure PackageJson where
  name : String
  scripts : Option (List (String × String))
deriving DecidableEq

/-- Embeds the record construction inside scanProjectsInDirectory: the
project is registered with scripts equal to the manifest scripts field, or
the empty map when that field is absent (the source writes
packageJson.scripts or-else the empty object). -/
def scanProject (directory : String) (packageJson : PackageJson) : Project :=
  ⟨packageJson.name, directory, packageJson.scripts.getD []⟩

/-! ## Package manager detection -/

/-- The three package managers the tool can invoke. -/
inductive PackageManager where
  | npm
  | pnpm
  | yarn
deriving DecidableEq

/-- The marker files that may exist in the workspace root directory and
drive detection: pnpm-workspace.yaml, pnpm-lock.yaml and yarn.lock. -/
structure RootMarkers where
  pnpmWorkspaceFile : Bool
  pnpmLock : Bool
  yarnLock : Bool
deriving DecidableEq

/-- The package manager selection made by detectWorkspaceProjects, together
with the message it reports: the pnpm workspace file or pnpm lockfile
selects pnpm, else a yarn lockfile selects yarn, else npm is the default.
Translated from the if-chain at the top of detectWorkspaceProjects. -/
def detectWorkspaceProjects (root : RootMarkers) : PackageManager × String :=
  if root.pnpmWorkspaceFile || root.pnpmLock then
    (PackageManager.pnpm, "Detected pnpm workspace")
  else if root.yarnLock then
    (PackageManager.yarn, "Detected yarn workspace")
  else
    (PackageManager.npm, "Defaulting to npm workspace")

/-- Modelled from the words of the specification, for comparison with the
source definition: a pnpm-specific workspace file or lockfile selects pnpm;
a yarn lockfile selects yarn; otherwise npm is the default. -/
def detectPackageManagerSpec (root : RootMarkers) : PackageManager :=
  if root.pnpmWorkspaceFile || root.pnpmLock then PackageManager.pnpm
  else if root.yarnLock then PackageManager.yarn
  else PackageManager.npm

/-! ## The script map (getAllAvailableScripts) -/

/-- Boolean membership of a string in a list, via the equality test. -/
def memB (k : String) (l : List String) : Bool := l.any (fun x => x == k)

/-- One step of building the script map: the body of the inner loop of
getAllAvailableScripts. When the script name is already a key the project
is pushed onto its list; otherwise the key is created with the singleton
list (the source initialises the key with an empty array and pushes). -/
def pushScript (m : List (String × List Project)) (k : String) (pr : Project) :
    List (String × List Project) :=
  match m with
  | [] => [(k, [pr])]
  | e :: rest =>
      if e.1 == k then (e.1, e.2 ++ [pr]) :: rest
      else e :: pushScript rest k pr

/-- The inner loop of getAllAvailableScripts over the script names declared
by one project. -/
def addProjectScripts (m : List (String × List Project)) (pr : Project) :
    List (String × List Project) :=
  pr.scripts.foldl (fun acc kv => pushScript acc kv.1 pr) m

/-- Translation of getAllAvailableScripts: fold the per-project loop over
the discovered projects, starting from the empty map. -/
def getAllAvailableScripts (projects : List Project) : List (String × List Project) :=
  projects.foldl addProjectScripts []

/-- Reading a key of the script map: the list stored under the key, or the
empty list when the key is absent. -/
def lookupScript (m : List (String × List Project)) (k : String) : List Project :=
  match m with
  | [] => []
  | e :: rest => if e.1 == k then e.2 else lookupScript rest k

/-- Whether the script map has an entry for the given key. -/
def hasScript (m : List (String × List Project)) (k : String) : Bool :=
  m.any (fun e => e.1 == k)

/-! ## The process table and runScript -/

/-- JS Map.set: replace the value of an existing key in place, otherwise
append the new entry at the end (insertion order is preserved). -/
def mapSet (m : List (String × Nat)) (k : String) (v : Nat) : List (String × Nat) :=
  match m with
  | [] => [(k, v)]
  | e :: rest => if e.1 == k then (k, v) :: rest else e :: mapSet rest k v

/-- JS Map.delete: remove the entry with the given key. Keys are unique in
a Map, so removing every matching entry is the same operation. -/
def mapDelete (m : List (String × Nat)) (k : String) : List (String × Nat) :=
  m.filter (fun e => e.1 != k)

/-- JS Map.has. -/
def mapHas (m : List (String × Nat)) (k : String) : Bool :=
  m.any (fun e => e.1 == k)

/-- The state the manager carries across operations: the runningProcesses
table (keys mapped to abstract process handles, modelled as numbers drawn
from a spawn counter) and the detected package manager. -/
structure MState where
  table : List (String × Nat)
  nextPid : Nat
  packageManager : PackageManager
deriving DecidableEq

/-- The state of a manager at startup: an empty table and the default
package manager npm (the field initialiser in the source). -/
def initState : MState := ⟨[], 0, PackageManager.npm⟩

/-- One spawn request as passed to the child-process module: the
executable, its argument vector and the working directory. -/
structure SpawnCall where
  cmd : PackageManager
  args : List String
  cwd : String
deriving DecidableEq

/-- Translation of runScript: for each project in order, form the key
name:scriptName, spawn the detected package manager with arguments
run scriptName in the project path, and register the fresh process in the
table under its key (Map.set, so an existing entry for the key is silently
overwritten). Returns the new state and the spawn calls that were issued. -/
def runScript (scriptName : String) (projects : List Project) (s : MState) :
    MState × List SpawnCall :=
  match projects with
  | [] => (s, [])
  | pr :: rest =>
      let processKey := pr.name ++ ":" ++ scriptName
      let call : SpawnCall := ⟨s.packageManager, ["run", scriptName], pr.path⟩
      let s₁ : MState :=
        ⟨mapSet s.table processKey s.nextPid, s.nextPid + 1, s.packageManager⟩
      let rec_ := runScript scriptName rest s₁
      (rec_.1, call :: rec_.2)

/-- The keys a runScript call registers, in order. -/
def keysOfRun (scriptName : String) (projects : List Project) : List String :=
  projects.map (fun pr => pr.name ++ ":" ++ scriptName)

/-- The process handles a stopAllProcesses call iterates over and signals:
the values stored in the table at the moment of the call. -/
def stopAllSignaledHandles (s : MState) : List Nat :=
  s.table.map Prod.snd

/-! ## Table events

The table is mutated by runScript (insertion) and by the handlers the
source registers: the close and error listeners attached at spawn time in
runScript, and the onExit handler installed by stopAllProcesses, all of
which delete the key captured at registration time. -/

/-- The events that mutate the process table. The close event carries the
exit code the handler receives (the handler logs it and deletes the key
regardless of its value). -/
inductive MEvent where
  | run (scriptName : String) (projects : List Project)
  | childClose (key : String) (code : Int)
  | childError (key : String)
  | stopObserved (key : String)

/-- The effect of one event on the manager state, translated from the
corresponding handler bodies in the source. -/
def stepM (s : MState) : MEvent → MState
  | MEvent.run sn ps => (runScript sn ps s).1
  | MEvent.childClose k _ => ⟨mapDelete s.table k, s.nextPid, s.packageManager⟩
  | MEvent.childError k => ⟨mapDelete s.table k, s.nextPid, s.packageManager⟩
  | MEvent.stopObserved k => ⟨mapDelete s.table k, s.nextPid, s.packageManager⟩

/-- Run a sequence of events from the startup state. -/
def runM (evs : List MEvent) : MState := evs.foldl stepM initState

/-- All keys spawned over an event sequence, in order. -/
def spawnedKeys : List MEvent → List String
  | [] => []
  | MEvent.run sn ps :: r => keysOfRun sn ps ++ spawnedKeys r
  | _ :: r => spawnedKeys r

/-- All keys for which a terminal transition was reported over an event
sequence: a close event, an error event, or a confirmed termination
observed during stopAllProcesses. -/
def terminalKeys : List MEvent → List String
  | [] => []
  | MEvent.run _ _ :: r => terminalKeys r
  | MEvent.childClose k _ :: r => k :: terminalKeys r
  | MEvent.childError k :: r => k :: terminalKeys r
  | MEvent.stopObserved k :: r => k :: terminalKeys r

/-- Well-formedness of an event sequence relative to the keys spawned so
far: a terminal event only ever concerns a key that has been spawned
earlier (handlers are attached at spawn time, so they cannot fire for a
key that was never spawned). -/
def wfFrom (spawned : List String) : List MEvent → Bool
  | [] => true
  | MEvent.run sn ps :: r => wfFrom (spawned ++ keysOfRun sn ps) r
  | MEvent.childClose k _ :: r => memB k spawned && wfFrom spawned r
  | MEvent.childError k :: r => memB k spawned && wfFrom spawned r
  | MEvent.stopObserved k :: r => memB k spawned && wfFrom spawned r

/-! ## The per-process termination protocol of stopAllProcesses

The body of the promise executor that stopAllProcesses builds for one table
entry is straight-line code whose branches depend on the platform, on
whether the child has a pid, on whether the kill system calls throw, and on
whether the operating system delivers a close or exit event before the
2-second grace timer fires. Those outcomes form a finite environment, and
the executor (together with the later event and timer callbacks) is
translated as a function from that environment to the trace of actions
performed. -/

/-- The signals the protocol sends. -/
inductive Sig where
  | sigterm
  | sigkill
deriving DecidableEq

/-- A signal target: the whole process group (negative pid on POSIX) or the
single tracked process. -/
inductive Target where
  | group
  | single
deriving DecidableEq

/-- The observable actions of the per-process termination protocol. A kill
action records its target, the signal, and whether the system call
succeeded (false means it threw because the process was already gone). -/
inductive SAction where
  | unpipeStdout
  | destroyStdout
  | unpipeStderr
  | destroyStderr
  | unpipeStdin
  | endStdin
  | registerExitListeners
  | kill (t : Target) (sg : Sig) (ok : Bool)
  | observeExit
  | timerFire
  | logForceKill
  | logAlreadyExited
  | logErrorStopping
  | deleteKey
  | removeListeners
  | resolve
deriving DecidableEq

/-- The environment of one per-process termination: everything outside the
control of the supervisor code that the executor branches on. -/
structure StopEnv where
  isWin32 : Bool
  hasPid : Bool
  hasStdout : Bool
  hasStderr : Bool
  hasStdin : Bool
  setupThrows : Bool
  groupTermFails : Bool
  directTermFails : Bool
  exitsBeforeTimeout : Bool
  groupKillFails : Bool
  directKillFails : Bool
deriving DecidableEq

/-- The grace period before escalation, from the setTimeout literal in
stopAllProcesses (milliseconds). -/
def graceTimeoutMs : Nat := 2000

/-- The stream cleanup performed at the top of the executor: unpipe and
destroy stdout and stderr, unpipe and end stdin, each guarded on the
stream being present. -/
def detachActions (e : StopEnv) : List SAction :=
  (if e.hasStdout then [SAction.unpipeStdout, SAction.destroyStdout] else [])
    ++ (if e.hasStderr then [SAction.unpipeStderr, SAction.destroyStderr] else [])
    ++ (if e.hasStdin then [SAction.unpipeStdin, SAction.endStdin] else [])

/-- The body of the onExit handler: delete the key from the table, remove
all listeners, resolve the termination promise. -/
def onExitActions : List SAction :=
  [SAction.deleteKey, SAction.removeListeners, SAction.resolve]

/-- The polite signalling phase of the executor: on POSIX with a pid, try a
group SIGTERM, fall back to a direct SIGTERM if the group kill throws, and
call onExit directly if that also throws; on win32 with a pid, a direct
SIGTERM with onExit on failure; with no pid, onExit directly. Returns the
actions performed and whether onExit ran synchronously in this phase. -/
def politeKillPhase (e : StopEnv) : List SAction × Bool :=
  if !e.isWin32 && e.hasPid then
    if !e.groupTermFails then ([SAction.kill Target.group Sig.sigterm true], false)
    else if !e.directTermFails then
      ([SAction.kill Target.group Sig.sigterm false,
        SAction.kill Target.single Sig.sigterm true], false)
    else
      ([SAction.kill Target.group Sig.sigterm false,
        SAction.kill Target.single Sig.sigterm false] ++ onExitActions, true)
  else if e.hasPid then
    if !e.directTermFails then ([SAction.kill Target.single Sig.sigterm true], false)
    else ([SAction.kill Target.single Sig.sigterm false] ++ onExitActions, true)
  else (onExitActions, true)

/-- The body of the grace-timer callback when the key is still in the
table: log the escalation, then send SIGKILL to the group on POSIX or to
the single process on win32 (a failure is logged as the process having
already exited; note the source attempts no direct kill when the group
SIGKILL throws), and finally run onExit. -/
def forceKillActions (e : StopEnv) : List SAction :=
  SAction.timerFire :: SAction.logForceKill ::
    (if !e.isWin32 && e.hasPid then
      (if !e.groupKillFails then [SAction.kill Target.group Sig.sigkill true]
       else [SAction.kill Target.group Sig.sigkill false, SAction.logAlreadyExited])
    else if e.hasPid then
      (if !e.directKillFails then [SAction.kill Target.single Sig.sigkill true]
       else [SAction.kill Target.single Sig.sigkill false, SAction.logAlreadyExited])
    else [])
    ++ onExitActions

/-- The full trace of one per-process termination under a given
environment. An exception inside the try block (modelled as thrown at its
start) reaches the catch clause, which logs, deletes the key and resolves.
Otherwise: streams are detached, the close and exit listeners are
registered, the polite phase runs, and then either the protocol already
resolved synchronously and the later grace timer finds the key gone, or
the child exit is observed before the timer (running onExit, with the
timer a no-op afterwards), or the timer fires first and the force-kill
path runs. -/
def stopOneTrace (e : StopEnv) : List SAction :=
  if e.setupThrows then
    [SAction.logErrorStopping, SAction.deleteKey, SAction.resolve]
  else
    let kp := politeKillPhase e
    detachActions e ++ [SAction.registerExitListeners] ++ kp.1 ++
      (if kp.2 then [SAction.timerFire]
       else if e.exitsBeforeTimeout then
         SAction.observeExit :: onExitActions ++ [SAction.timerFire]
       else forceKillActions e)

/-! ## Trace predicates -/

/-- Whether, scanning a trace left to right, every action satisfying q is
preceded by some earlier action satisfying p. The boolean argument records
whether a p-action has been seen already. -/
def eventsPreceded {α : Type} (p q : α → Bool) : List α → Bool → Bool
  | [], _ => true
  | a :: rest, seen => (!(q a) || seen) && eventsPreceded p q rest (seen || p a)

/-- Whether, scanning a trace left to right, no action satisfying q occurs
strictly after an action satisfying p. The boolean argument records whether
a p-action has been seen already. -/
def noneAfter {α : Type} (p q : α → Bool) : List α → Bool → Bool
  | [], _ => true
  | a :: rest, seen => (!(seen && q a)) && noneAfter p q rest (seen || p a)

/-- Whether an action is one of the kill attempts. -/
def isKillAct : SAction → Bool
  | SAction.kill _ _ _ => true
  | _ => false

/-- Whether an action is a SIGKILL attempt that threw. -/
def isFailedSigkillAct : SAction → Bool
  | SAction.kill _ Sig.sigkill false => true
  | _ => false

/-- Whether an action is a SIGKILL attempt aimed at the single process. -/
def isSingleSigkillAct : SAction → Bool
  | SAction.kill Target.single Sig.sigkill _ => true
  | _ => false

/-- Whether an action is a SIGKILL attempt. -/
def isSigkillAct : SAction → Bool
  | SAction.kill _ Sig.sigkill _ => true
  | _ => false

/-- The property claimed of the protocol: the termination promise resolves
only after a close or exit event from the operating system has been
observed. -/
def resolvesOnlyAfterObservedExit (tr : List SAction) : Bool :=
  eventsPreceded (fun a => a == SAction.observeExit)
    (fun a => a == SAction.resolve) tr false

/-- The justifications under which the code actually resolves without
restriction to an observed exit: an observed exit, the grace timer having
fired, a failed direct polite kill (the process was already gone), or the
setup error path. -/
def resolveJustifier (a : SAction) : Bool :=
  a == SAction.observeExit || a == SAction.timerFire ||
    a == SAction.logErrorStopping ||
    (match a with
     | SAction.kill Target.single Sig.sigterm false => true
     | _ => false)

/-- Whether a SIGKILL attempt occurs anywhere in a trace. -/
def sigkillAttempted (tr : List SAction) : Bool := tr.any isSigkillAct

/-- Whether the process had not reached the terminal protocol state when
the grace timer fired: the timer fires in the trace and no table deletion
precedes it. -/
def aliveAtTimerFire (tr : List SAction) : Bool :=
  match tr.findIdx? (fun a => a == SAction.timerFire),
      tr.findIdx? (fun a => a == SAction.deleteKey) with
  | some i, some j => decide (i < j)
  | some _, none => true
  | none, _ => false

/-! ## The controller paths that trigger stopAllProcesses (index.js and
the cancel handler) -/

/-- The observable actions of the controller around shutdown. -/
inductive CAction where
  | logMsg (msg : String)
  | callStopAllProcesses
  | awaitStopAllSettled
  | promptCancelMsg
  | setExitDelayTimer
  | exitProcess (code : Nat)
deriving DecidableEq

/-- Translation of the SIGINT handler installed in main (index.js): log,
call stopAllProcesses and await the promise it returns, log completion,
then exit through a small flush delay timer. -/
def sigintHandlerTrace : List CAction :=
  [CAction.logMsg "Received SIGINT (Ctrl+C). Cleaning up...",
   CAction.callStopAllProcesses,
   CAction.awaitStopAllSettled,
   CAction.logMsg "Cleanup complete. Exiting...",
   CAction.setExitDelayTimer,
   CAction.exitProcess 0]

/-- Translation of the handleCancel method of the manager, run when an
interactive prompt is cancelled: call stopAllProcesses without awaiting the
returned promise, print the cancellation message, and exit immediately. -/
def handleCancelTrace : List CAction :=
  [CAction.callStopAllProcesses,
   CAction.promptCancelMsg,
   CAction.exitProcess 0]

/-- Whether a controller trace awaits the settlement of stopAllProcesses
before every process exit it performs. -/
def awaitsStopBeforeExit (tr : List CAction) : Bool :=
  eventsPreceded (fun a => a == CAction.awaitStopAllSettled)
    (fun a => match a with | CAction.exitProcess _ => true | _ => false) tr false

/-! ## stopAllProcesses at the level of the whole table -/

/-- The console lines stopAllProcesses itself prints: the initial count,
one line per key, and the final line printed after the aggregate promise
from Promise.all has resolved. -/
inductive TopLog where
  | stoppingCount (n : Nat)
  | stoppingKey (k : String)
  | allTerminated
deriving DecidableEq

/-- Translation of stopAllProcesses: snapshot the table entries; when there
are none, return at once with no output; otherwise print the count and the
per-key lines, run the per-process termination protocol for every entry
concurrently, and print the final line once every individual promise has
resolved. The per-process environments are supplied by the surrounding
world as a function of the key. -/
def stopAllProcesses (s : MState) (envf : String → StopEnv) :
    List TopLog × List (String × List SAction) :=
  let processes := s.table
  if processes.length == 0 then ([], [])
  else
    (TopLog.stoppingCount processes.length ::
       (processes.map (fun pr => TopLog.stoppingKey pr.1) ++ [TopLog.allTerminated]),
     processes.map (fun pr => (pr.1, stopOneTrace (envf pr.1))))

/-! ## Sample inputs used in concrete theorems -/

/-- A POSIX environment for a healthy child with a pid that ignores the
polite SIGTERM (it has not exited when the grace timer fires) and in which
no kill call fails. -/
def ignoresSigterm : StopEnv :=
  ⟨false, true, true, true, true, false, false, false, false, false, false⟩

/-- A POSIX environment for a child with a pid that ignores the polite
SIGTERM and whose process group is gone by the time the grace timer fires,
so that the group SIGKILL throws. -/
def groupKillThrows : StopEnv :=
  ⟨false, true, true, true, true, false, false, false, false, true, false⟩

/-- A sample project used in concrete scenarios. -/
def projApp : Project := ⟨"app", "/ws/app", [("dev", "vite")]⟩

/-- The state after a first runScript of the dev script in projApp. -/
def stAfterFirst : MState := (runScript "dev" [projApp] initState).1

/-- The state after a second runScript with the identical key while the
first process is still tracked. -/
def stAfterSecond : MState := (runScript "dev" [projApp] stAfterFirst).1

/-- A sample project exposing a build script. -/
def projAlpha : Project := ⟨"alpha", "/ws/alpha", [("build", "tsc")]⟩

/-- A second sample project exposing a build script. -/
def projBeta : Project := ⟨"beta", "/ws/beta", [("build", "vite build")]⟩

/-- A sample event sequence: one runScript over two projects, then the
close event of the first spawned process. -/
def sampleEvents : List MEvent :=
  [MEvent.run "build" [projAlpha, projBeta], MEvent.childClose "alpha:build" 0]

/-! ## Helper lemmas -/

theorem string_beq_symm (a b : String) : (a == b) = (b == a) := by
  by_cases h : a = b
  · subst h; rfl
  · simp [beq_eq_false_iff_ne, h, Ne.symm h]

theorem memB_append (k : String) (l₁ l₂ : List String) :
    memB k (l₁ ++ l₂) = (memB k l₁ || memB k l₂) := by
  simp [memB, List.any_append]

theorem memB_iff (k : String) (l : List String) : memB k l = true ↔ k ∈ l := by
  simp [memB]

theorem filter_filter' {α : Type} (p q : α → Bool) (l : List α) :
    (l.filter p).filter q = l.filter (fun a => p a && q a) := by
  induction l with
  | nil => rfl
  | cons a rest ih =>
      by_cases h : p a = true
      · by_cases h' : q a = true
        · simp [List.filter_cons, h, h', ih]
        · simp [List.filter_cons, h, h', ih]
      · simp [List.filter_cons, h, ih]

theorem filter_true_of {α : Type} (p : α → Bool) (l : List α) :
    (∀ x ∈ l, p x = true) → l.filter p = l := by
  induction l with
  | nil => intro _; rfl
  | cons a rest ih =>
      intro h
      have ha := h a (by simp)
      have hr := ih (fun x hx => h x (by simp [hx]))
      simp [List.filter_cons, ha, hr]

theorem resolve_once : ∀ e : StopEnv, (stopOneTrace e).count SAction.resolve = 1 := by
  intro e
  obtain ⟨a, b, c, d, f, g, h, i, j, k, l⟩ := e
  revert a b c d f g h i j k l
  decide

theorem mapSet_fresh (m : List (String × Nat)) (k : String) (v : Nat) :
    ¬ k ∈ m.map Prod.fst → mapSet m k v = m ++ [(k, v)] := by
  induction m with
  | nil => intro _; rfl
  | cons e rest ih =>
      intro h
      have h1 : ¬ e.1 = k := fun he => h (by simp [he])
      have h2 : ¬ k ∈ rest.map Prod.fst := fun hm => h (by simp [hm])
      simp [mapSet, h1, ih h2]

theorem mapDelete_keys (m : List (String × Nat)) (k : String) :
    (mapDelete m k).map Prod.fst = (m.map Prod.fst).filter (fun x => x != k) := by
  induction m with
  | nil => rfl
  | cons e rest ih =>
      simp only [mapDelete] at ih ⊢
      by_cases h : (e.1 != k) = true
      · simp [List.filter_cons, h, ih]
      · simp [List.filter_cons, h, ih]

theorem runScript_table_keys (sn : String) (ps : List Project) : ∀ (s : MState),
    (s.table.map Prod.fst ++ keysOfRun sn ps).Nodup →
    (runScript sn ps s).1.table.map Prod.fst
      = s.table.map Prod.fst ++ keysOfRun sn ps := by
  induction ps with
  | nil => intro s _; simp [runScript, keysOfRun]
  | cons pr rest ih =>
      intro s h
      have hfresh : ¬ (pr.name ++ ":" ++ sn) ∈ s.table.map Prod.fst := by
        have h2 := List.nodup_append.mp (by simpa [keysOfRun] using h)
        intro hm
        exact h2.2.2 hm (by simp)
      have htab : (⟨mapSet s.table (pr.name ++ ":" ++ sn) s.nextPid,
            s.nextPid + 1, s.packageManager⟩ : MState).table.map Prod.fst
          = s.table.map Prod.fst ++ [pr.name ++ ":" ++ sn] := by
        simp [mapSet_fresh _ _ _ hfresh]
      have h' : (((⟨mapSet s.table (pr.name ++ ":" ++ sn) s.nextPid,
            s.nextPid + 1, s.packageManager⟩ : MState).table.map Prod.fst)
            ++ keysOfRun sn rest).Nodup := by
        rw [htab]
        simpa [keysOfRun, List.append_assoc] using h
      have hrec := ih _ h'
      show (runScript sn rest _).1.table.map Prod.fst = _
      rw [hrec, htab]
      simp [keysOfRun, List.append_assoc]

theorem delete_step_table (s : MState) (spawnedAcc dead : List String) (k : String)
    (h4 : s.table.map Prod.fst = spawnedAcc.filter (fun x => !(memB x dead))) :
    (⟨mapDelete s.table k, s.nextPid, s.packageManager⟩ : MState).table.map Prod.fst
      = spawnedAcc.filter (fun x => !(memB x (dead ++ [k]))) := by
  show (mapDelete s.table k).map Prod.fst = _
  rw [mapDelete_keys, h4, filter_filter']
  congr 1
  funext x
  simp [memB_append, memB, bne, string_beq_symm x k, Bool.not_or]

theorem dead_extend (spawnedAcc dead : List String) (k : String)
    (h2 : ∀ x, memB x dead = true → x ∈ spawnedAcc) (hk : k ∈ spawnedAcc) :
    ∀ x, memB x (dead ++ [k]) = true → x ∈ spawnedAcc := by
  intro x hx
  rw [memB_append] at hx
  rcases Bool.or_eq_true_iff.mp hx with h | h
  · exact h2 x h
  · have : k = x := by simpa [memB] using h
    exact this ▸ hk

theorem tableInv (evs : List MEvent) : ∀ (spawnedAcc dead : List String) (s : MState),
    (spawnedAcc ++ spawnedKeys evs).Nodup →
    (∀ x, memB x dead = true → x ∈ spawnedAcc) →
    wfFrom spawnedAcc evs = true →
    s.table.map Prod.fst = spawnedAcc.filter (fun x => !(memB x dead)) →
    (evs.foldl stepM s).table.map Prod.fst
      = (spawnedAcc ++ spawnedKeys evs).filter
          (fun x => !(memB x (dead ++ terminalKeys evs))) := by
  induction evs with
  | nil =>
      intro spawnedAcc dead s _ _ _ h4
      simpa [spawnedKeys, terminalKeys] using h4
  | cons ev r ih =>
      intro spawnedAcc dead s h1 h2 h3 h4
      cases ev with
      | run sn ps =>
          have hwf : wfFrom (spawnedAcc ++ keysOfRun sn ps) r = true := h3
          have h1' : ((spawnedAcc ++ keysOfRun sn ps) ++ spawnedKeys r).Nodup := by
            simpa [spawnedKeys, List.append_assoc] using h1
          have hnd := List.nodup_append.mp h1'
          have hndAK := List.nodup_append.mp hnd.1
          have hfilsub : ∀ x ∈ s.table.map Prod.fst, x ∈ spawnedAcc := by
            intro x hx
            rw [h4] at hx
            exact (List.mem_filter.mp hx).1
          have hndTK : (s.table.map Prod.fst ++ keysOfRun sn ps).Nodup := by
            rw [List.nodup_append]
            refine ⟨by rw [h4]; exact hndAK.1.filter _, hndAK.2.1, ?_⟩
            intro x hx hx2
            exact hndAK.2.2 (hfilsub x hx) hx2
          have hstep := runScript_table_keys sn ps s hndTK
          have hksq : (keysOfRun sn ps).filter (fun x => !(memB x dead))
              = keysOfRun sn ps := by
            apply filter_true_of
            intro x hx
            cases hb : memB x dead with
            | false => rfl
            | true => exact (hndAK.2.2 (h2 x hb) hx).elim
          have hs'tab : (runScript sn ps s).1.table.map Prod.fst
              = (spawnedAcc ++ keysOfRun sn ps).filter (fun x => !(memB x dead)) := by
            rw [hstep, h4, List.filter_append, hksq]
          have h2' : ∀ x, memB x dead = true → x ∈ spawnedAcc ++ keysOfRun sn ps :=
            fun x hx => List.mem_append_left _ (h2 x hx)
          have hrec := ih (spawnedAcc ++ keysOfRun sn ps) dead
            (runScript sn ps s).1 h1' h2' hwf hs'tab
          show ((r.foldl stepM (runScript sn ps s).1).table.map Prod.fst) = _
          rw [hrec]
          simp [spawnedKeys, terminalKeys, List.append_assoc]
      | childClose k code =>
          have h3' : (memB k spawnedAcc && wfFrom spawnedAcc r) = true := h3
          have hsplit := Bool.and_eq_true_iff.mp h3'
          have hk : k ∈ spawnedAcc := (memB_iff k spawnedAcc).mp hsplit.1
          have h4' := delete_step_table s spawnedAcc dead k h4
          have h2' := dead_extend spawnedAcc dead k h2 hk
          have h1' : (spawnedAcc ++ spawnedKeys r).Nodup := by
            simpa [spawnedKeys] using h1
          have hrec := ih spawnedAcc (dead ++ [k])
            ⟨mapDelete s.table k, s.nextPid, s.packageManager⟩ h1' h2' hsplit.2 h4'
          show ((r.foldl stepM
            (⟨mapDelete s.table k, s.nextPid, s.packageManager⟩ : MState)).table.map
              Prod.fst) = _
          rw [hrec]
          simp [spawnedKeys, terminalKeys, List.append_assoc]
      | childError k =>
          have h3' : (memB k spawnedAcc && wfFrom spawnedAcc r) = true := h3
          have hsplit := Bool.and_eq_true_iff.mp h3'
          have hk : k ∈ spawnedAcc := (memB_iff k spawnedAcc).mp hsplit.1
          have h4' := delete_step_table s spawnedAcc dead k h4
          have h2' := dead_extend spawnedAcc dead k h2 hk
          have h1' : (spawnedAcc ++ spawnedKeys r).Nodup := by
            simpa [spawnedKeys] using h1
          have hrec := ih spawnedAcc (dead ++ [k])
            ⟨mapDelete s.table k, s.nextPid, s.packageManager⟩ h1' h2' hsplit.2 h4'
          show ((r.foldl stepM
            (⟨mapDelete s.table k, s.nextPid, s.packageManager⟩ : MState)).table.map
              Prod.fst) = _
          rw [hrec]
          simp [spawnedKeys, terminalKeys, List.append_assoc]
      | stopObserved k =>
          have h3' : (memB k spawnedAcc && wfFrom spawnedAcc r) = true := h3
          have hsplit := Bool.and_eq_true_iff.mp h3'
          have hk : k ∈ spawnedAcc := (memB_iff k spawnedAcc).mp hsplit.1
          have h4' := delete_step_table s spawnedAcc dead k h4
          have h2' := dead_extend spawnedAcc dead k h2 hk
          have h1' : (spawnedAcc ++ spawnedKeys r).Nodup := by
            simpa [spawnedKeys] using h1
          have hrec := ih spawnedAcc (dead ++ [k])
            ⟨mapDelete s.table k, s.nextPid, s.packageManager⟩ h1' h2' hsplit.2 h4'
          show ((r.foldl stepM
            (⟨mapDelete s.table k, s.nextPid, s.packageManager⟩ : MState)).table.map
              Prod.fst) = _
          rw [hrec]
          simp [spawnedKeys, terminalKeys, List.append_assoc]

theorem lookupScript_pushScript (k k' : String) (pr : Project) :
    ∀ (m : List (String × List Project)),
    lookupScript (pushScript m k pr) k'
      = if k' = k then lookupScript m k' ++ [pr] else lookupScript m k' := by
  intro m
  induction m with
  | nil =>
      simp only [pushScript, lookupScript]
      by_cases h : k' = k
      · subst h
        simp
      · rw [if_neg (fun hh : (k == k') = true => h (beq_iff_eq.mp hh).symm), if_neg h]
  | cons e rest ih =>
      by_cases h1 : (e.1 == k) = true
      · simp only [pushScript, if_pos h1]
        simp only [lookupScript]
        have hek : e.1 = k := beq_iff_eq.mp h1
        by_cases h2 : (e.1 == k') = true
        · have hk : k' = k := by rw [← beq_iff_eq.mp h2, hek]
          rw [if_pos h2, if_pos hk]
          simp only [lookupScript, if_pos h2]
        · have hk : ¬ k' = k := fun hh =>
            h2 (beq_iff_eq.mpr (by rw [hek, hh]))
          rw [if_neg h2, if_neg hk]
          simp only [lookupScript, if_neg h2]
      · simp only [pushScript, if_neg h1]
        simp only [lookupScript]
        by_cases h2 : (e.1 == k') = true
        · have he2 : e.1 = k' := beq_iff_eq.mp h2
          have hk : ¬ k' = k := fun hh => h1 (beq_iff_eq.mpr (he2.trans hh))
          rw [if_pos h2, if_neg hk]
          simp only [lookupScript, if_pos h2]
        · rw [if_neg h2, ih]
          simp only [lookupScript, if_neg h2]

theorem hasScript_pushScript (k k' : String) (pr : Project) :
    ∀ (m : List (String × List Project)),
    hasScript (pushScript m k pr) k' = (hasScript m k' || (k == k')) := by
  intro m
  induction m with
  | nil =>
      show ((k == k') || false) = (false || (k == k'))
      cases k == k' <;> rfl
  | cons e rest ih =>
      by_cases h1 : (e.1 == k) = true
      · simp only [pushScript, if_pos h1]
        show ((e.1 == k') || rest.any (fun x => x.1 == k'))
            = (((e.1 == k') || rest.any (fun x => x.1 == k')) || (k == k'))
        rw [beq_iff_eq.mp h1]
        cases hkk : k == k' <;> simp [hkk]
      · simp only [pushScript, if_neg h1]
        show ((e.1 == k') || hasScript (pushScript rest k pr) k')
            = (((e.1 == k') || hasScript rest k') || (k == k'))
        rw [ih, Bool.or_assoc]

theorem lookupScript_addProjectScripts (pr : Project) (s : String) :
    ∀ (scripts : List (String × String)) (m : List (String × List Project)),
    (scripts.map Prod.fst).Nodup →
    lookupScript (scripts.foldl (fun acc kv => pushScript acc kv.1 pr) m) s
      = if s ∈ scripts.map Prod.fst then lookupScript m s ++ [pr]
        else lookupScript m s := by
  intro scripts
  induction scripts with
  | nil => intro m _; simp
  | cons kv rest ih =>
      intro m hnd
      have hnd' : (kv.1 :: rest.map Prod.fst).Nodup := by
        rw [← List.map_cons]
        exact hnd
      have hparts := List.nodup_cons.mp hnd'
      show lookupScript (rest.foldl _ (pushScript m kv.1 pr)) s = _
      rw [ih (pushScript m kv.1 pr) hparts.2, lookupScript_pushScript]
      by_cases hs : s = kv.1
      · subst hs
        simp [hparts.1]
      · by_cases hr : s ∈ rest.map Prod.fst
        · simp [hs, hr]
        · simp [hs, hr]

theorem hasScript_addProjectScripts (pr : Project) (s : String) :
    ∀ (scripts : List (String × String)) (m : List (String × List Project)),
    hasScript (scripts.foldl (fun acc kv => pushScript acc kv.1 pr) m) s
      = (hasScript m s || memB s (scripts.map Prod.fst)) := by
  intro scripts
  induction scripts with
  | nil => intro m; simp [memB]
  | cons kv rest ih =>
      intro m
      show hasScript (rest.foldl _ (pushScript m kv.1 pr)) s = _
      rw [ih (pushScript m kv.1 pr), hasScript_pushScript]
      simp [memB, Bool.or_assoc]

theorem lookupScript_getAll (s : String) :
    ∀ (ps : List Project) (m : List (String × List Project)),
    (∀ p ∈ ps, (p.scripts.map Prod.fst).Nodup) →
    lookupScript (ps.foldl addProjectScripts m) s
      = lookupScript m s ++ ps.filter (fun p => memB s (p.scripts.map Prod.fst)) := by
  intro ps
  induction ps with
  | nil => intro m _; simp
  | cons p rest ih =>
      intro m h
      show lookupScript (rest.foldl addProjectScripts (addProjectScripts m p)) s = _
      rw [ih _ (fun q hq => h q (by simp [hq]))]
      rw [show addProjectScripts m p
        = p.scripts.foldl (fun acc kv => pushScript acc kv.1 p) m from rfl]
      rw [lookupScript_addProjectScripts p s p.scripts m (h p (by simp))]
      by_cases hm : s ∈ p.scripts.map Prod.fst
      · have hb : memB s (p.scripts.map Prod.fst) = true := (memB_iff _ _).mpr hm
        simp [List.filter_cons, hm, hb, List.append_assoc]
      · have hb : memB s (p.scripts.map Prod.fst) = false := by
          cases hx : memB s (p.scripts.map Prod.fst) with
          | false => rfl
          | true => exact absurd ((memB_iff _ _).mp hx) hm
        simp [List.filter_cons, hm, hb]

theorem hasScript_getAll (s : String) :
    ∀ (ps : List Project) (m : List (String × List Project)),
    hasScript (ps.foldl addProjectScripts m) s
      = (hasScript m s || ps.any (fun p => memB s (p.scripts.map Prod.fst))) := by
  intro ps
  induction ps with
  | nil => intro m; simp
  | cons p rest ih =>
      intro m
      show hasScript (rest.foldl addProjectScripts (addProjectScripts m p)) s = _
      rw [ih (addProjectScripts m p)]
      rw [show addProjectScripts m p
        = p.scripts.foldl (fun acc kv => pushScript acc kv.1 p) m from rfl]
      rw [hasScript_addProjectScripts]
      simp [Bool.or_assoc]

/-! ## Claim theorems -/

/-- C1 counterexample: in the environment of a process that ignores the
polite SIGTERM on POSIX, the per-process termination trace resolves the
promise (right after the forceful SIGKILL is sent on the timeout path)
even though no close or exit event from the operating system was ever
observed, refuting the claim that the promise resolves only after the
terminal transition has been observed. -/
theorem stopOne_resolves_without_observed_exit :
    resolvesOnlyAfterObservedExit (stopOneTrace ignoresSigterm) = false
    ∧ SAction.resolve ∈ stopOneTrace ignoresSigterm
    ∧ sigkillAttempted (stopOneTrace ignoresSigterm) = true
    ∧ (stopOneTrace ignoresSigterm).contains SAction.observeExit = false := by
  decide

/-- C1 (amended): in every environment, the termination promise resolves
only after an observed close or exit event, or after the 2-second grace
timer has fired (the force-kill path resolves immediately after attempting
SIGKILL, without waiting for its effect), or after a failed direct polite
kill (the process was already gone), or on the setup-error path; the only
traces with no kill attempt at all are those of a process with no pid or a
setup error, which resolve immediately. -/
theorem stopOne_resolve_justified : ∀ e : StopEnv,
    (eventsPreceded resolveJustifier (fun a => a == SAction.resolve)
        (stopOneTrace e) false
      || !((stopOneTrace e).any isKillAct)) = true := by
  intro e
  obtain ⟨a, b, c, d, f, g, h, i, j, k, l⟩ := e
  revert a b c d f g h i j k l
  decide

/-- C2: in every environment, every per-process termination trace produced
by stopAllProcesses resolves its promise exactly once (so no branch of the
protocol hangs), and when the table is nonempty the aggregate completion
line is the last thing stopAllProcesses prints, after every individual
termination has resolved. -/
theorem stopAllProcesses_settles : ∀ (s : MState) (envf : String → StopEnv),
    ((stopAllProcesses s envf).2.all
        (fun pr => (pr.2.count SAction.resolve) == 1)) = true
    ∧ (s.table = []
        ∨ (stopAllProcesses s envf).1.getLast? = some TopLog.allTerminated) := by
  intro s envf
  cases htab : s.table with
  | nil =>
      constructor
      · simp [stopAllProcesses, htab]
      · exact Or.inl rfl
  | cons hd tl =>
      have hsnd : (stopAllProcesses s envf).2
          = (hd :: tl).map (fun pr => (pr.1, stopOneTrace (envf pr.1))) := by
        simp [stopAllProcesses, htab]
      have hfst : (stopAllProcesses s envf).1
          = TopLog.stoppingCount (hd :: tl).length ::
              ((hd :: tl).map (fun pr => TopLog.stoppingKey pr.1)
                ++ [TopLog.allTerminated]) := by
        simp [stopAllProcesses, htab]
      constructor
      · rw [hsnd, List.all_eq_true]
        intro x hx
        rw [List.mem_map] at hx
        obtain ⟨pr, _, rfl⟩ := hx
        simpa using resolve_once (envf pr.1)
      · refine Or.inr ?_
        rw [hfst, ← List.cons_append, List.getLast?_concat]

/-- C3 counterexample: on POSIX, when the group SIGKILL of the force-kill
path throws, the code attempts no direct single-process SIGKILL — the
catch only logs the process as already exited and the finally block
resolves — refuting the claimed single-process fallback for the forceful
signal (the polite phase has such a failure fallback, the forceful phase
does not). -/
theorem groupSigkill_failure_has_no_direct_fallback :
    (stopOneTrace groupKillThrows).contains
        (SAction.kill Target.group Sig.sigkill false) = true
    ∧ ((stopOneTrace groupKillThrows).any isSingleSigkillAct) = false
    ∧ SAction.logAlreadyExited ∈ stopOneTrace groupKillThrows
    ∧ SAction.resolve ∈ stopOneTrace groupKillThrows := by
  decide

/-- C3 (amended): in every environment, a SIGKILL is attempted exactly
when the grace timer (2000 milliseconds) fires while the process has not
yet reached the terminal protocol state; the forceful signal is dispatched
by platform only — the process group on POSIX, the single process on win32
where group targeting is unavailable — with no failure fallback: after a
SIGKILL attempt that throws, no further kill attempt of any kind occurs;
and the escalation log line always precedes the SIGKILL attempt. -/
theorem forceKill_exactly_when_alive : ∀ e : StopEnv,
    graceTimeoutMs = 2000
    ∧ sigkillAttempted (stopOneTrace e) = aliveAtTimerFire (stopOneTrace e)
    ∧ ((stopOneTrace e).all (fun a =>
        match a with
        | SAction.kill t Sig.sigkill _ =>
            t == (if e.isWin32 then Target.single else Target.group)
        | _ => true)) = true
    ∧ (noneAfter isFailedSigkillAct isKillAct (stopOneTrace e) false) = true
    ∧ (eventsPreceded (fun a => a == SAction.logForceKill) isSigkillAct
        (stopOneTrace e) false) = true := by
  intro e
  obtain ⟨a, b, c, d, f, g, h, i, j, k, l⟩ := e
  revert a b c d f g h i j k l
  decide

/-- C5 counterexample: the cancel path of the manager calls process exit
without ever awaiting the settlement of the stopAllProcesses promise, so a
cancelled interactive prompt does not await completion of stopAll before
the controller exits. -/
theorem cancel_exits_without_awaiting :
    awaitsStopBeforeExit handleCancelTrace = false
    ∧ CAction.exitProcess 0 ∈ handleCancelTrace := by
  decide

/-- C5 (amended): the SIGINT handler triggers stopAllProcesses and awaits
its settlement before the controller exits, while a cancelled interactive
prompt triggers stopAllProcesses (so the synchronous part of the protocol,
including signal sending, runs) but exits without awaiting the returned
promise, so the controller may exit before the termination promises of the
tracked children have settled. -/
theorem interrupt_awaits_but_cancel_does_not :
    awaitsStopBeforeExit sigintHandlerTrace = true
    ∧ eventsPreceded (fun a => a == CAction.callStopAllProcesses)
        (fun a => match a with | CAction.exitProcess _ => true | _ => false)
        handleCancelTrace false = true
    ∧ handleCancelTrace.contains CAction.awaitStopAllSettled = false := by
  decide

/-- C6: a second runScript call under the key of a still-tracked process
is neither rejected nor deduplicated: the spawn happens (one spawn call is
issued and a fresh handle is allocated), the table entry for the key is
silently overwritten with the second handle, and a subsequent
stopAllProcesses iterates only over the second handle, leaving the first
process running but unreachable. -/
theorem duplicate_key_overwrites_entry :
    stAfterFirst.table = [("app:dev", 0)]
    ∧ (runScript "dev" [projApp] stAfterFirst).2.length = 1
    ∧ stAfterSecond.table = [("app:dev", 1)]
    ∧ stopAllSignaledHandles stAfterSecond = [1]
    ∧ (stopAllSignaledHandles stAfterSecond).contains 0 = false := by
  decide

/-- C7: in every environment, within the termination of a single tracked
process, every detach or close action on the streams that are present
(unpipe and destroy of stdout and stderr, unpipe and end of stdin)
precedes every kill attempt of the protocol, polite or forceful. -/
theorem streams_detached_before_signals : ∀ e : StopEnv,
    ((detachActions e).all
      (fun d => eventsPreceded (fun a => a == d) isKillAct
        (stopOneTrace e) false)) = true := by
  intro e
  obtain ⟨a, b, c, d, f, g, h, i, j, k, l⟩ := e
  revert a b c d f g h i j k l
  decide

/-- C8: calling stopAllProcesses with an empty table returns at once, with
no console output and no per-process termination work. -/
theorem stopAllProcesses_empty_noop : ∀ (s : MState) (envf : String → StopEnv),
    s.table = [] → stopAllProcesses s envf = ([], []) := by
  intro s envf h
  simp [stopAllProcesses, h]

/-- C8 witness: the empty-table no-op at the startup state. -/
theorem stopAllProcesses_empty_noop_witness :
    stopAllProcesses initState (fun _ => ignoresSigterm) = ([], []) :=
  stopAllProcesses_empty_noop initState (fun _ => ignoresSigterm) rfl

/-- C10: package manager selection follows the marker files exactly as the
specification words it (pnpm workspace file or pnpm lockfile selects pnpm,
else a yarn lockfile selects yarn, else npm), and every spawn issued by
runScript invokes the detected package manager with argument vector
run scriptName and working directory equal to the project path. -/
theorem packageManager_detection_and_spawn :
    (∀ root : RootMarkers,
      (detectWorkspaceProjects root).1 = detectPackageManagerSpec root)
    ∧ ∀ (scriptName : String) (projects : List Project) (s : MState),
        (runScript scriptName projects s).2
          = projects.map
              (fun pr => SpawnCall.mk s.packageManager ["run", scriptName] pr.path) := by
  constructor
  · intro root
    obtain ⟨a, b, c⟩ := root
    revert a b c
    decide
  · intro scriptName projects
    induction projects with
    | nil => intro s; rfl
    | cons pr rest ih =>
        intro s
        simp [runScript, ih]

/-- C4: for any well-formed event sequence whose spawned keys are pairwise
distinct (terminal events only concern keys spawned earlier), the process
table holds exactly the keys of spawned processes for which no terminal
transition (close event, error event, or confirmed termination during
stopAllProcesses) has been reported, in spawn order: keys are inserted at
spawn time and removed at the terminal transition, and a key whose process
already reported a terminal transition is never in the table. -/
theorem processTable_tracks_incomplete_spawns : ∀ (evs : List MEvent),
    (spawnedKeys evs).Nodup → wfFrom [] evs = true →
    (runM evs).table.map Prod.fst
      = (spawnedKeys evs).filter (fun k => !(memB k (terminalKeys evs))) := by
  intro evs h1 h2
  have h := tableInv evs [] [] initState (by simpa using h1)
    (by intro k hk; simp [memB] at hk) h2 (by rfl)
  simpa [runM] using h

/-- C4 witness: after spawning the build script in two projects and
observing the close event of the first process, the table holds exactly
the key of the second, still-running process. -/
theorem processTable_tracks_incomplete_spawns_witness :
    (runM sampleEvents).table.map Prod.fst = ["beta:build"] :=
  (processTable_tracks_incomplete_spawns sampleEvents (by decide) (by decide)).trans
    (by decide)

/-- C9: getAllAvailableScripts is a pure function of the project list,
recomputed from it on every call; for every script name it returns under a
key exactly the projects declaring that name (in discovery order), a key
is present exactly when some project declares the name, and a manifest
with no scripts field is scanned as a project with an empty script map, so
it contributes no key and appears under no key of the result. Script names
within one manifest are unique, which the hypothesis records. -/
theorem availableScripts_characterization : ∀ (ps : List Project),
    (∀ p ∈ ps, (p.scripts.map Prod.fst).Nodup) →
    (∀ s : String,
      lookupScript (getAllAvailableScripts ps) s
        = ps.filter (fun p => memB s (p.scripts.map Prod.fst))
      ∧ hasScript (getAllAvailableScripts ps) s
        = ps.any (fun p => memB s (p.scripts.map Prod.fst)))
    ∧ ∀ (dir nm : String), (scanProject dir ⟨nm, none⟩).scripts = [] := by
  intro ps h
  constructor
  · intro s
    constructor
    · have hl := lookupScript_getAll s ps [] h
      simpa [getAllAvailableScripts, lookupScript] using hl
    · have hh := hasScript_getAll s ps []
      simpa [getAllAvailableScripts, hasScript] using hh
  · intro dir nm
    rfl

/-- C9 witness: two projects both exposing a build script are listed, in
order, under the build key. -/
theorem availableScripts_characterization_witness :
    lookupScript (getAllAvailableScripts [projAlpha, projBeta]) "build"
      = [projAlpha, projBeta] :=
  (((availableScripts_characterization [projAlpha, projBeta] (by decide)).1
    "build").1).trans (by decide)

end Warden
